import Mathlib

/-!
Verification of the streaming Stackblur generator of `stackblur-iter`
(`src/iter.rs`): the `StackBlur` state machine (`preload`, `main`, `feed`),
the `StackBlurIter` iterator wrapper, and the improved Stackblur algorithm
they implement.

Samples are embedded as unbounded integers `ℤ` (the crate's `StackBlurrable`
contract: a commutative additive group with scalar multiplication and
truncating division by a `usize`).  Panicking operations (`unwrap`, index out
of bounds, division by zero, `assert!`) are modelled by `Except Panic`.
-/

open Finset

/-- The two variants of the private `State` enum of `iter.rs`. -/
inductive BlurState where
  | preload (index trailing : ℕ)
  | main (leading trailing : ℕ)
deriving Repr, DecidableEq

/-- The `StackBlur<B>` generator struct of `iter.rs`, with `B = ℤ` and the
`VecDeque` window `ops` as a list whose head is the deque front. -/
structure StackBlur where
  radius : ℕ
  sum : ℤ
  rate : ℤ
  dnom : ℕ
  ops : List ℤ
  state : BlurState
deriving Repr, DecidableEq

/-- The ways the Rust code can panic. -/
inductive Panic where
  | assertFailed
  | popFrontEmpty
  | indexOutOfBounds
  | divByZero
deriving Repr, DecidableEq

/-- `StackBlur::with_ops`: a fresh generator (possibly with a recycled deque). -/
def StackBlur.withOps (radius : ℕ) (ops : List ℤ) : StackBlur :=
  ⟨radius, 0, 0, 0, ops, .preload 0 0⟩

/-- The body of `StackBlur::main`.  `result` is computed from the entry state,
then `rate`, `sum`, `leading`/`dnom` are updated and the three-way branch on
`trailing` decides whether the fed item is consumed, the trailing edge
shrinks, or the generator resets.  The division, the `pop_front().unwrap()`,
the `ops[radius]` index and the two `assert!`s are the possible panics. -/
def mainStep (s : StackBlur) (leading trailing : ℕ) (item : Option ℤ) :
    Except Panic (ℤ × StackBlur) :=
  if s.dnom = 0 then .error .divByZero else
  match s.ops with
  | [] => .error .popFrontEmpty
  | front :: rest =>
    if rest.length ≤ s.radius then .error .indexOutOfBounds else
    let result := s.sum.tdiv s.dnom
    let rate₁ := s.rate + front - rest.getD s.radius 0 * 2
    let sum₁ := s.sum + rate₁
    let leading₁ := if leading < s.radius then leading + 1 else leading
    let dnom₁ := if leading < s.radius then s.dnom + (s.radius + 1 - (leading + 1)) else s.dnom
    if s.radius = 0 ∨ trailing = s.radius then
      match item with
      | some b => .ok (result, { s with
          sum := sum₁ + b
          rate := rate₁ + b
          dnom := dnom₁
          ops := rest ++ [b]
          state := .main leading₁ trailing })
      | none =>
        if 0 < s.radius then
          .ok (result, { s with
            sum := sum₁
            rate := rate₁
            dnom := dnom₁ - (s.radius + 1 - trailing)
            ops := rest
            state := .main leading₁ (trailing - 1) })
        else
          .ok (result, { s with
            sum := sum₁
            rate := rate₁
            dnom := dnom₁
            ops := rest
            state := .preload 0 0 })
    else if 0 < trailing then
      match item with
      | some _ => .error .assertFailed
      | none => .ok (result, { s with
          sum := sum₁
          rate := rate₁
          dnom := dnom₁ - (s.radius + 1 - trailing)
          ops := rest
          state := .main leading₁ (trailing - 1) })
    else
      match item with
      | some _ => .error .assertFailed
      | none => .ok (result, { s with
          sum := sum₁
          rate := rate₁
          dnom := dnom₁
          ops := rest
          state := .preload 0 0 })

/-- The common tail of `StackBlur::preload` for a `Some(item)`: weight
`radius + 1 - index` into `sum` and `dnom`, weight 1 into `rate`, push onto
the back of `ops`, and advance `index` (incrementing `trailing` once the
denominator exceeds the new weight). -/
def preloadPush (s : StackBlur) (index trailing : ℕ) (b : ℤ) :
    Except Panic (Option ℤ × StackBlur) :=
  let mul := s.radius + 1 - index
  let st := if s.radius < index then BlurState.main 0 trailing
    else if mul < s.dnom + mul then BlurState.preload (index + 1) (trailing + 1)
    else BlurState.preload (index + 1) trailing
  .ok (none, { s with
    sum := s.sum + b * (mul : ℤ)
    rate := s.rate + b
    dnom := s.dnom + mul
    ops := s.ops ++ [b]
    state := st })

/-- The body of `StackBlur::preload`: at `index = 0` the window is normalised
to `radius + 1` default elements and the accumulators reset; past the warm-up
(`index > radius`) or on end of input the call is handed over to `main`. -/
def preloadStep (s : StackBlur) (index trailing : ℕ) (item : Option ℤ) :
    Except Panic (Option ℤ × StackBlur) :=
  match item with
  | some b =>
    if index = 0 then
      preloadPush { s with
        ops := List.replicate (s.radius + 1) 0
        sum := 0
        rate := 0
        dnom := 0 } index trailing b
    else if s.radius < index then
      match mainStep { s with state := .main 0 trailing } 0 trailing (some b) with
      | .error p => .error p
      | .ok (res, s₁) => .ok (some res, s₁)
    else
      preloadPush s index trailing b
  | none =>
    if index = 0 then .ok (none, s)
    else
      match mainStep { s with state := .main 0 trailing } 0 trailing none with
      | .error p => .error p
      | .ok (res, s₁) => .ok (some res, s₁)

/-- `StackBlur::feed`: dispatch on the stored state. -/
def feed (s : StackBlur) (item : Option ℤ) : Except Panic (Option ℤ × StackBlur) :=
  match s.state with
  | .preload i t => preloadStep s i t item
  | .main l t =>
    match mainStep s l t item with
    | .error p => .error p
    | .ok (res, s₁) => .ok (some res, s₁)

/-- Feed every element of a list as `Some`, collecting the emitted outputs. -/
def runFeeds (s : StackBlur) : List ℤ → Except Panic (List ℤ × StackBlur)
  | [] => .ok ([], s)
  | x :: rest =>
    match feed s (some x) with
    | .error p => .error p
    | .ok (none, s₁) => runFeeds s₁ rest
    | .ok (some b, s₁) =>
      match runFeeds s₁ rest with
      | .error p => .error p
      | .ok (outs, s₂) => .ok (b :: outs, s₂)

/-- Repeatedly feed `None` until the generator stops emitting (fuelled). -/
def drainGo : ℕ → StackBlur → Except Panic (List ℤ × StackBlur)
  | 0, s => .ok ([], s)
  | n + 1, s =>
    match feed s none with
    | .error p => .error p
    | .ok (none, s₁) => .ok ([], s₁)
    | .ok (some b, s₁) =>
      match drainGo n s₁ with
      | .error p => .error p
      | .ok (outs, s₂) => .ok (b :: outs, s₂)

/-- Blur a whole finite sequence through a generator built by
`StackBlur::with_ops` (feeding every sample, then draining). -/
def blurWith (r : ℕ) (ops0 xs : List ℤ) : Except Panic (List ℤ × StackBlur) :=
  match runFeeds (StackBlur.withOps r ops0) xs with
  | .error p => .error p
  | .ok (outs, s₁) =>
    match drainGo (r + 2) s₁ with
    | .error p => .error p
    | .ok (outs₂, s₂) => .ok (outs ++ outs₂, s₂)

/-- The blurred sequence (fresh deque). -/
def blur (r : ℕ) (xs : List ℤ) : Except Panic (List ℤ) :=
  match blurWith r [] xs with
  | .error p => .error p
  | .ok (outs, _) => .ok outs

/-- The outputs emitted by the drain phase alone, i.e. by the `feed(None)`
calls after the last real input sample was consumed. -/
def drainOutputs (r : ℕ) (xs : List ℤ) : Except Panic (List ℤ) :=
  match runFeeds (StackBlur.withOps r []) xs with
  | .error p => .error p
  | .ok (_, s₁) =>
    match drainGo (r + 2) s₁ with
    | .error p => .error p
    | .ok (outs, _) => .ok outs

/-- The `StackBlurIter` struct: a wrapped source iterator (as the list of
items not yet pulled), the generator, and the `resetting` flag. -/
structure SBIter where
  iter : List ℤ
  generator : StackBlur
  resetting : Bool
deriving Repr, DecidableEq

/-- The `for item in &mut self.iter` loop of `StackBlurIter::next`, followed
by the trailing `feed(None)` when the source is exhausted. -/
def iterLoop (g : StackBlur) : List ℤ → Except Panic (Option ℤ × SBIter)
  | [] =>
    match feed g none with
    | .error p => .error p
    | .ok (res, g₁) => .ok (res, ⟨[], g₁, res.isSome⟩)
  | x :: rest =>
    match feed g (some x) with
    | .error p => .error p
    | .ok (some b, g₁) => .ok (some b, ⟨rest, g₁, false⟩)
    | .ok (none, g₁) => iterLoop g₁ rest

/-- `StackBlurIter::next`. -/
def iterNext (it : SBIter) : Except Panic (Option ℤ × SBIter) :=
  match it.resetting with
  | true =>
    match feed it.generator none with
    | .error p => .error p
    | .ok (res, g₁) => .ok (res, ⟨it.iter, g₁, res.isSome⟩)
  | false => iterLoop it.generator it.iter

/-- Pull from the iterator until it yields `None` (fuelled), collecting the
yielded items. -/
def iterCollect : ℕ → SBIter → Except Panic (List ℤ)
  | 0, _ => .ok []
  | n + 1, it =>
    match iterNext it with
    | .error p => .error p
    | .ok (none, _) => .ok []
    | .ok (some b, it₁) =>
      match iterCollect n it₁ with
      | .error p => .error p
      | .ok outs => .ok (b :: outs)

/-- The triangular (tent) kernel weight of tap `j` for output position `e`:
`radius + 1 - |e - j|`, and `0` outside the kernel (truncated subtraction). -/
def wt (r e j : ℕ) : ℕ := r + 1 - max (e - j) (j - e)

/-- The per-sample coefficient inside the generator's `rate` accumulator
after `e` outputs: `+1` for samples not yet past the centre, `-1` while the
sample is leaving the kernel, `0` once it has fully left. -/
def rho (r e j : ℕ) : ℤ := if e ≤ j then 1 else if e ≤ j + r + 1 then -1 else 0

/-- Total weight of the kernel for output `e`, truncated to taps `0 ≤ j < k`. -/
def sumWt (r k e : ℕ) : ℕ := ∑ j ∈ Finset.range k, wt r e j

/-- Weighted sum of the first `k` samples of `ys` under the kernel at `e`. -/
def sumWtX (r : ℕ) (ys : List ℤ) (k e : ℕ) : ℤ :=
  ∑ j ∈ Finset.range k, (wt r e j : ℤ) * ys.getD j 0

/-- Rate accumulator value for `e` emitted outputs over consumed samples `ys`. -/
def sumRhoX (r : ℕ) (ys : List ℤ) (k e : ℕ) : ℤ :=
  ∑ j ∈ Finset.range k, rho r e j * ys.getD j 0

/-- The specification's output value at position `e`: the weighted average of
the in-range taps under the triangular kernel truncated (not clamped) at both
sequence boundaries, with truncating integer division. -/
def triangularAt (r : ℕ) (xs : List ℤ) (e : ℕ) : ℤ :=
  (sumWtX r xs xs.length e).tdiv (sumWt r xs.length e)

/-- The window contents after warm-up normalisation: `radius + 1` zeros
followed by the consumed samples. -/
def padded (r : ℕ) (ys : List ℤ) : List ℤ := List.replicate (r + 1) 0 ++ ys

/-- Shared part of the reachable-state invariant: the accumulators of `s`
hold the kernel sums for `e` emitted outputs over consumed samples `ys`, and
the window is the padded sample list minus the `e` popped fronts. -/
def Fields (r : ℕ) (ys : List ℤ) (e : ℕ) (s : StackBlur) : Prop :=
  s.radius = r ∧ e < ys.length ∧ ys.length ≤ e + r + 1 ∧
  s.sum = sumWtX r ys ys.length e ∧
  s.rate = sumRhoX r ys ys.length e ∧
  s.dnom = sumWt r ys.length e ∧
  s.ops = (padded r ys).drop e

/-- Invariant of a generator in the warm-up phase having consumed `ys`. -/
def PreInv (r : ℕ) (ys : List ℤ) (s : StackBlur) : Prop :=
  s.state = .preload ys.length (ys.length - 1) ∧ ys.length ≤ r + 1 ∧
  Fields r ys 0 s

/-- Invariant of a generator in the main (steady or drain) phase: `ys`
consumed, `e` outputs emitted. -/
def MainInv (r : ℕ) (ys : List ℤ) (e : ℕ) (s : StackBlur) : Prop :=
  s.state = .main (min e r) (ys.length - 1 - e) ∧ Fields r ys e s

/-- Every state reachable from some freshly constructed generator by
non-panicking `feed` calls. -/
inductive Reachable : StackBlur → Prop where
  | base (r : ℕ) (ops0 : List ℤ) : Reachable (StackBlur.withOps r ops0)
  | step {s : StackBlur} {item : Option ℤ} {out : Option ℤ} {s₂ : StackBlur} :
      Reachable s → feed s item = .ok (out, s₂) → Reachable s₂

/-- Disjunction of the three reachable-state shapes: idle, warming up, main. -/
def Good (s : StackBlur) : Prop :=
  s.state = .preload 0 0 ∨ (∃ ys, PreInv s.radius ys s) ∨
    (∃ ys e, MainInv s.radius ys e s)

/-- `Drains g outs`: starting from `g`, successive `feed(None)` calls emit
exactly the items of `outs` and then one further `feed(None)` emits nothing. -/
inductive Drains : StackBlur → List ℤ → Prop where
  | nil {g g₁ : StackBlur} : feed g none = .ok (none, g₁) → Drains g []
  | cons {g g₁ : StackBlur} {b : ℤ} {outs : List ℤ} :
      feed g none = .ok (some b, g₁) → Drains g₁ outs → Drains g (b :: outs)

theorem padded_length (r : ℕ) (ys : List ℤ) : (padded r ys).length = r + 1 + ys.length := by
  simp [padded]

theorem padded_getD_lt {r j : ℕ} (ys : List ℤ) (h : j < r + 1) :
    (padded r ys).getD j 0 = 0 := by
  unfold padded
  rw [List.getD_append _ _ _ _ (by simpa using h),
    List.getD_eq_getElem _ _ (by simpa using h)]
  simp

theorem padded_getD_ge {r j : ℕ} (ys : List ℤ) (h : r + 1 ≤ j) :
    (padded r ys).getD j 0 = ys.getD (j - (r + 1)) 0 := by
  unfold padded
  rw [List.getD_append_right _ _ _ _ (by simpa using h)]
  simp

theorem drop_padded_cons {r e : ℕ} (ys : List ℤ) (h : e < r + 1 + ys.length) :
    (padded r ys).drop e = (padded r ys).getD e 0 :: (padded r ys).drop (e + 1) := by
  have hl : e < (padded r ys).length := by rw [padded_length]; exact h
  rw [List.drop_eq_getElem_cons hl, List.getD_eq_getElem _ _ hl]

theorem drop_padded_center {r e : ℕ} (ys : List ℤ) (h : e < ys.length) :
    ((padded r ys).drop (e + 1)).getD r 0 = ys.getD e 0 := by
  rw [List.getD_eq_getElem?_getD, List.getElem?_drop, ← List.getD_eq_getElem?_getD]
  rw [padded_getD_ge ys (by omega)]
  congr 1
  omega

theorem drop_padded_length {r e : ℕ} (ys : List ℤ) :
    ((padded r ys).drop e).length = r + 1 + ys.length - e := by
  rw [List.length_drop, padded_length]

theorem padded_append (r : ℕ) (ys : List ℤ) (x : ℤ) :
    padded r (ys ++ [x]) = padded r ys ++ [x] := by
  simp [padded]

theorem drop_padded_append {r e : ℕ} (ys : List ℤ) (x : ℤ) (h : e ≤ r + 1 + ys.length) :
    (padded r (ys ++ [x])).drop e = (padded r ys).drop e ++ [x] := by
  rw [padded_append, List.drop_append_of_le_length (by rw [padded_length]; exact h)]

theorem getD_append_lt (ys : List ℤ) (x : ℤ) {j : ℕ} (h : j < ys.length) :
    (ys ++ [x]).getD j 0 = ys.getD j 0 :=
  List.getD_append _ _ _ _ h

theorem getD_append_self (ys : List ℤ) (x : ℤ) :
    (ys ++ [x]).getD ys.length 0 = x := by
  rw [List.getD_append_right _ _ _ _ le_rfl]
  simp

theorem wt_self (r e : ℕ) : wt r e e = r + 1 := by
  simp [wt]

theorem wt_zero_of_far {r e j : ℕ} (h : e + r + 1 ≤ j) : wt r e j = 0 := by
  unfold wt
  omega

theorem sumWt_pos {r k e : ℕ} (h : e < k) : r + 1 ≤ sumWt r k e := by
  have h1 : wt r e e ≤ sumWt r k e :=
    Finset.single_le_sum (f := fun j => wt r e j) (fun i _ => Nat.zero_le _)
      (Finset.mem_range.mpr h)
  rw [wt_self] at h1
  exact h1

theorem wt_step_pointwise {r e j : ℕ} (hj : j ≤ e + r) :
    (wt r (e + 1) j : ℤ) = (wt r e j : ℤ) + rho r (e + 1) j := by
  unfold wt rho
  split_ifs <;> omega

theorem sum_ite_coeff {k p : ℕ} (y : ℕ → ℤ) (hp : p < k) :
    ∑ j ∈ Finset.range k, (if j = p then y j else 0) = y p := by
  rw [Finset.sum_ite_eq' (Finset.range k) p y]
  simp [hp]

theorem sumRho_base (r E : ℕ) :
    ∑ j ∈ Finset.range E, rho r E j = -((min E (r + 1) : ℕ) : ℤ) := by
  have h1 : ∀ j ∈ Finset.range E, rho r E j = if E ≤ j + r + 1 then (-1 : ℤ) else 0 := by
    intro j hj
    rw [Finset.mem_range] at hj
    unfold rho
    rw [if_neg (by omega)]
  rw [Finset.sum_congr rfl h1, Finset.sum_ite, Finset.sum_const, Finset.sum_const,
    smul_zero, add_zero]
  have h2 : (Finset.range E).filter (fun j => E ≤ j + r + 1) = Finset.Ico (E - (r + 1)) E := by
    ext j
    simp only [Finset.mem_filter, Finset.mem_range, Finset.mem_Ico]
    omega
  rw [h2, Nat.card_Ico]
  simp only [nsmul_eq_mul]
  omega

theorem sumRho_sum (r E : ℕ) : ∀ k, E ≤ k →
    ∑ j ∈ Finset.range k, rho r E j = (k : ℤ) - E - ((min E (r + 1) : ℕ) : ℤ) := by
  intro k hk
  induction k, hk using Nat.le_induction with
  | base =>
    rw [sumRho_base]
    omega
  | succ k hk ih =>
    rw [Finset.sum_range_succ, ih]
    have : rho r E k = 1 := by unfold rho; rw [if_pos hk]
    rw [this]
    push_cast
    ring

theorem sumWt_step {r k e : ℕ} (he : e < k) (hk : k ≤ e + r + 1) :
    (sumWt r k (e + 1) : ℤ) =
      (sumWt r k e : ℤ) + (k : ℤ) - e - 1 - ((min (e + 1) (r + 1) : ℕ) : ℤ) := by
  have h1 : (sumWt r k (e + 1) : ℤ) = ∑ j ∈ Finset.range k, ((wt r e j : ℤ) + rho r (e + 1) j) := by
    rw [sumWt, Nat.cast_sum]
    refine Finset.sum_congr rfl (fun j hj => ?_)
    rw [Finset.mem_range] at hj
    exact wt_step_pointwise (by omega)
  rw [h1, Finset.sum_add_distrib, sumRho_sum r (e + 1) k (by omega), sumWt, Nat.cast_sum]
  push_cast
  ring

theorem sumRhoX_step (r : ℕ) (ys : List ℤ) (e : ℕ) (he : e < ys.length) :
    sumRhoX r ys ys.length (e + 1) =
      sumRhoX r ys ys.length e + (padded r ys).getD e 0 - 2 * ys.getD e 0 := by
  by_cases hcase : e < r + 1
  · rw [padded_getD_lt ys hcase]
    unfold sumRhoX
    have key : ∀ j ∈ Finset.range ys.length, rho r (e + 1) j * ys.getD j 0 =
        rho r e j * ys.getD j 0 + (if j = e then (-2) * ys.getD j 0 else 0) := by
      intro j hj
      have h1 : rho r (e + 1) j = rho r e j + (if j = e then -2 else 0) := by
        unfold rho
        split_ifs <;> omega
      rw [h1]
      split_ifs <;> ring
    rw [Finset.sum_congr rfl key, Finset.sum_add_distrib, sum_ite_coeff _ he]
    ring
  · rw [padded_getD_ge ys (by omega)]
    unfold sumRhoX
    have key : ∀ j ∈ Finset.range ys.length, rho r (e + 1) j * ys.getD j 0 =
        rho r e j * ys.getD j 0 + (if j = e - (r + 1) then ys.getD j 0 else 0) +
          (if j = e then (-2) * ys.getD j 0 else 0) := by
      intro j hj
      have h1 : rho r (e + 1) j = rho r e j + (if j = e - (r + 1) then 1 else 0) +
          (if j = e then -2 else 0) := by
        unfold rho
        split_ifs <;> omega
      rw [h1]
      split_ifs <;> ring
    rw [Finset.sum_congr rfl key, Finset.sum_add_distrib, Finset.sum_add_distrib,
      sum_ite_coeff _ he, sum_ite_coeff _ (by omega : e - (r + 1) < ys.length)]
    ring

theorem sumWtX_step (r : ℕ) (ys : List ℤ) (e : ℕ) (he : e < ys.length)
    (hk : ys.length ≤ e + r + 1) :
    sumWtX r ys ys.length (e + 1) =
      sumWtX r ys ys.length e + sumRhoX r ys ys.length (e + 1) := by
  unfold sumWtX sumRhoX
  rw [← Finset.sum_add_distrib]
  refine Finset.sum_congr rfl (fun j hj => ?_)
  rw [Finset.mem_range] at hj
  rw [wt_step_pointwise (by omega)]
  ring

theorem sumWtX_snoc (r : ℕ) (ys : List ℤ) (x : ℤ) (e : ℕ) :
    sumWtX r (ys ++ [x]) (ys.length + 1) e =
      sumWtX r ys ys.length e + (wt r e ys.length : ℤ) * x := by
  unfold sumWtX
  rw [Finset.sum_range_succ, getD_append_self]
  congr 1
  refine Finset.sum_congr rfl (fun j hj => ?_)
  rw [Finset.mem_range] at hj
  rw [getD_append_lt ys x hj]

theorem sumRhoX_snoc (r : ℕ) (ys : List ℤ) (x : ℤ) (e : ℕ) :
    sumRhoX r (ys ++ [x]) (ys.length + 1) e =
      sumRhoX r ys ys.length e + rho r e ys.length * x := by
  unfold sumRhoX
  rw [Finset.sum_range_succ, getD_append_self]
  congr 1
  refine Finset.sum_congr rfl (fun j hj => ?_)
  rw [Finset.mem_range] at hj
  rw [getD_append_lt ys x hj]

theorem sumWt_snoc (r : ℕ) (k e : ℕ) : sumWt r (k + 1) e = sumWt r k e + wt r e k := by
  unfold sumWt
  rw [Finset.sum_range_succ]

theorem wt_at_new (r e : ℕ) : wt r (e + 1) (e + r + 1) = 1 := by
  unfold wt
  omega

theorem rho_at_new (r e : ℕ) : rho r (e + 1) (e + r + 1) = 1 := by
  unfold rho
  rw [if_pos (by omega)]

theorem sumWt_extend {r k K e : ℕ} (h : e + r + 1 ≤ k) (hK : k ≤ K) :
    sumWt r K e = sumWt r k e := by
  unfold sumWt
  refine (Finset.sum_subset (Finset.range_subset.mpr hK) ?_).symm
  intro j hj hj2
  rw [Finset.mem_range] at hj
  rw [Finset.mem_range, not_lt] at hj2
  exact wt_zero_of_far (by omega)

theorem sumWtX_extend (r : ℕ) (ys rest : List ℤ) (e : ℕ) (h : e + r + 1 ≤ ys.length) :
    sumWtX r (ys ++ rest) (ys ++ rest).length e = sumWtX r ys ys.length e := by
  unfold sumWtX
  have h1 : ∑ j ∈ Finset.range ys.length, (wt r e j : ℤ) * ys.getD j 0
      = ∑ j ∈ Finset.range ys.length, (wt r e j : ℤ) * (ys ++ rest).getD j 0 := by
    refine Finset.sum_congr rfl (fun j hj => ?_)
    rw [Finset.mem_range] at hj
    rw [List.getD_append _ _ _ _ hj]
  rw [h1]
  refine (Finset.sum_subset (Finset.range_subset.mpr (by rw [List.length_append]; omega)) ?_).symm
  intro j hj hj2
  rw [Finset.mem_range, not_lt] at hj2
  rw [wt_zero_of_far (by omega)]
  simp
theorem mainStep_eq_accept (s : StackBlur) (leading trailing : ℕ) (b front : ℤ)
    (rest : List ℤ) (hops : s.ops = front :: rest) (hd : s.dnom ≠ 0)
    (hlen : s.radius < rest.length) (hbr : s.radius = 0 ∨ trailing = s.radius) :
    mainStep s leading trailing (some b) =
      .ok (s.sum.tdiv s.dnom, { s with
        sum := s.sum + (s.rate + front - rest.getD s.radius 0 * 2) + b
        rate := (s.rate + front - rest.getD s.radius 0 * 2) + b
        dnom := if leading < s.radius then s.dnom + (s.radius + 1 - (leading + 1)) else s.dnom
        ops := rest ++ [b]
        state := .main (if leading < s.radius then leading + 1 else leading) trailing }) := by
  simp only [mainStep, hops, if_neg hd, if_neg (not_le.mpr hlen), if_pos hbr]

theorem mainStep_eq_drain_full (s : StackBlur) (leading trailing : ℕ) (front : ℤ)
    (rest : List ℤ) (hops : s.ops = front :: rest) (hd : s.dnom ≠ 0)
    (hlen : s.radius < rest.length) (hbr : s.radius = 0 ∨ trailing = s.radius)
    (hr : 0 < s.radius) :
    mainStep s leading trailing none =
      .ok (s.sum.tdiv s.dnom, { s with
        sum := s.sum + (s.rate + front - rest.getD s.radius 0 * 2)
        rate := s.rate + front - rest.getD s.radius 0 * 2
        dnom := (if leading < s.radius then s.dnom + (s.radius + 1 - (leading + 1)) else s.dnom)
          - (s.radius + 1 - trailing)
        ops := rest
        state := .main (if leading < s.radius then leading + 1 else leading) (trailing - 1) }) := by
  simp only [mainStep, hops, if_neg hd, if_neg (not_le.mpr hlen), if_pos hbr, if_pos hr]

theorem mainStep_eq_reset_zero (s : StackBlur) (leading trailing : ℕ) (front : ℤ)
    (rest : List ℤ) (hops : s.ops = front :: rest) (hd : s.dnom ≠ 0)
    (hlen : s.radius < rest.length) (hbr : s.radius = 0 ∨ trailing = s.radius)
    (hr : ¬ 0 < s.radius) :
    mainStep s leading trailing none =
      .ok (s.sum.tdiv s.dnom, { s with
        sum := s.sum + (s.rate + front - rest.getD s.radius 0 * 2)
        rate := s.rate + front - rest.getD s.radius 0 * 2
        dnom := if leading < s.radius then s.dnom + (s.radius + 1 - (leading + 1)) else s.dnom
        ops := rest
        state := .preload 0 0 }) := by
  simp only [mainStep, hops, if_neg hd, if_neg (not_le.mpr hlen), if_pos hbr, if_neg hr]

theorem mainStep_eq_drain_mid (s : StackBlur) (leading trailing : ℕ) (front : ℤ)
    (rest : List ℤ) (hops : s.ops = front :: rest) (hd : s.dnom ≠ 0)
    (hlen : s.radius < rest.length) (hbr : ¬ (s.radius = 0 ∨ trailing = s.radius))
    (ht : 0 < trailing) :
    mainStep s leading trailing none =
      .ok (s.sum.tdiv s.dnom, { s with
        sum := s.sum + (s.rate + front - rest.getD s.radius 0 * 2)
        rate := s.rate + front - rest.getD s.radius 0 * 2
        dnom := (if leading < s.radius then s.dnom + (s.radius + 1 - (leading + 1)) else s.dnom)
          - (s.radius + 1 - trailing)
        ops := rest
        state := .main (if leading < s.radius then leading + 1 else leading) (trailing - 1) }) := by
  simp only [mainStep, hops, if_neg hd, if_neg (not_le.mpr hlen), if_neg hbr, if_pos ht]

theorem mainStep_eq_reset_end (s : StackBlur) (leading trailing : ℕ) (front : ℤ)
    (rest : List ℤ) (hops : s.ops = front :: rest) (hd : s.dnom ≠ 0)
    (hlen : s.radius < rest.length) (hbr : ¬ (s.radius = 0 ∨ trailing = s.radius))
    (ht : ¬ 0 < trailing) :
    mainStep s leading trailing none =
      .ok (s.sum.tdiv s.dnom, { s with
        sum := s.sum + (s.rate + front - rest.getD s.radius 0 * 2)
        rate := s.rate + front - rest.getD s.radius 0 * 2
        dnom := if leading < s.radius then s.dnom + (s.radius + 1 - (leading + 1)) else s.dnom
        ops := rest
        state := .preload 0 0 }) := by
  simp only [mainStep, hops, if_neg hd, if_neg (not_le.mpr hlen), if_neg hbr, if_neg ht]

theorem mainStep_eq_assert (s : StackBlur) (leading trailing : ℕ) (b : ℤ)
    (hd : s.dnom ≠ 0) (hops : s.radius + 2 ≤ s.ops.length)
    (hbr : ¬ (s.radius = 0 ∨ trailing = s.radius)) :
    mainStep s leading trailing (some b) = .error .assertFailed := by
  match h : s.ops with
  | [] => rw [h] at hops; simp at hops
  | front :: rest =>
    have hlen : s.radius < rest.length := by
      rw [h] at hops; simp at hops; omega
    by_cases ht : 0 < trailing
    · simp only [mainStep, h, if_neg hd, if_neg (not_le.mpr hlen), if_neg hbr, if_pos ht]
    · simp only [mainStep, h, if_neg hd, if_neg (not_le.mpr hlen), if_neg hbr, if_neg ht]

theorem mainStep_fields_some (r : ℕ) (ys : List ℤ) (e : ℕ) (s : StackBlur) (x : ℤ)
    (hF : Fields r ys e s) (hlen : ys.length = e + r + 1) :
    mainStep s (min e r) (ys.length - 1 - e) (some x) =
      .ok ((sumWtX r ys ys.length e).tdiv (sumWt r ys.length e),
        { radius := r
          sum := sumWtX r (ys ++ [x]) (ys ++ [x]).length (e + 1)
          rate := sumRhoX r (ys ++ [x]) (ys ++ [x]).length (e + 1)
          dnom := sumWt r (ys ++ [x]).length (e + 1)
          ops := (padded r (ys ++ [x])).drop (e + 1)
          state := .main (min (e + 1) r) ((ys ++ [x]).length - 1 - (e + 1)) }) := by
  obtain ⟨hrad, he, hk, hsum, hrate, hdnom, hops⟩ := hF
  have hpos := sumWt_pos (r := r) he
  have hd : s.dnom ≠ 0 := by rw [hdnom]; omega
  have hops2 : s.ops = (padded r ys).getD e 0 :: (padded r ys).drop (e + 1) := by
    rw [hops]; exact drop_padded_cons ys (by omega)
  have hrest : ((padded r ys).drop (e + 1)).length = r + ys.length - e := by
    rw [List.length_drop, padded_length]; omega
  have hlt : s.radius < ((padded r ys).drop (e + 1)).length := by rw [hrad, hrest]; omega
  have hbr : s.radius = 0 ∨ ys.length - 1 - e = s.radius := by right; omega
  rw [mainStep_eq_accept s _ _ x _ _ hops2 hd hlt hbr]
  have hcenter : ((padded r ys).drop (e + 1)).getD s.radius 0 = ys.getD e 0 := by
    rw [hrad]; exact drop_padded_center ys he
  have hlapp : (ys ++ [x]).length = ys.length + 1 := by simp
  have hwt1 : (wt r (e + 1) ys.length : ℤ) = 1 := by
    rw [hlen]; rw [wt_at_new]; simp
  have hrho1 : rho r (e + 1) ys.length = 1 := by rw [hlen]; exact rho_at_new r e
  have hstep := sumWtX_step r ys e he (by omega)
  have hrstep := sumRhoX_step r ys e he
  have hdstep := sumWt_step (r := r) (k := ys.length) (e := e) he (by omega)
  simp only [Except.ok.injEq, Prod.mk.injEq, StackBlur.mk.injEq]
  refine ⟨?_, ?_, ?_, ?_, ?_, ?_, ?_⟩
  · rw [hsum, hdnom]
  · exact hrad
  · rw [hlapp, sumWtX_snoc, hstep, hrstep, hwt1, hcenter, hsum, hrate]
    ring
  · rw [hlapp, sumRhoX_snoc, hrstep, hrho1, hcenter, hrate]
    ring
  · rw [hlapp, sumWt_snoc]
    have hw : wt r (e + 1) ys.length = 1 := by
      have : ((wt r (e + 1) ys.length : ℕ) : ℤ) = 1 := hwt1
      omega
    rw [hw, hdnom, hrad]
    split_ifs with hcond
    · omega
    · omega
  · rw [drop_padded_append ys x (by omega)]
  · rw [hlapp]
    have : ys.length + 1 - 1 - (e + 1) = ys.length - 1 - e := by omega
    rw [this, hrad]
    have hm : (if min e r < r then min e r + 1 else min e r) = min (e + 1) r := by
      split_ifs with hcond <;> omega
    rw [hm]

theorem mainStep_fields_none_cont (r : ℕ) (ys : List ℤ) (e : ℕ) (s : StackBlur)
    (hF : Fields r ys e s) (hend : e + 1 < ys.length) :
    mainStep s (min e r) (ys.length - 1 - e) none =
      .ok ((sumWtX r ys ys.length e).tdiv (sumWt r ys.length e),
        { radius := r
          sum := sumWtX r ys ys.length (e + 1)
          rate := sumRhoX r ys ys.length (e + 1)
          dnom := sumWt r ys.length (e + 1)
          ops := (padded r ys).drop (e + 1)
          state := .main (min (e + 1) r) (ys.length - 1 - (e + 1)) }) := by
  obtain ⟨hrad, he, hk, hsum, hrate, hdnom, hops⟩ := hF
  have hpos := sumWt_pos (r := r) he
  have hd : s.dnom ≠ 0 := by rw [hdnom]; omega
  have hops2 : s.ops = (padded r ys).getD e 0 :: (padded r ys).drop (e + 1) := by
    rw [hops]; exact drop_padded_cons ys (by omega)
  have hlt : s.radius < ((padded r ys).drop (e + 1)).length := by
    rw [hrad, List.length_drop, padded_length]; omega
  have hcenter : ((padded r ys).drop (e + 1)).getD s.radius 0 = ys.getD e 0 := by
    rw [hrad]; exact drop_padded_center ys he
  have hrstep := sumRhoX_step r ys e he
  have hstep := sumWtX_step r ys e he (by omega)
  have hdstep := sumWt_step (r := r) (k := ys.length) (e := e) he (by omega)
  have hcont : mainStep s (min e r) (ys.length - 1 - e) none =
      .ok (s.sum.tdiv s.dnom, { s with
        sum := s.sum + (s.rate + (padded r ys).getD e 0 -
          ((padded r ys).drop (e + 1)).getD s.radius 0 * 2)
        rate := s.rate + (padded r ys).getD e 0 -
          ((padded r ys).drop (e + 1)).getD s.radius 0 * 2
        dnom := (if min e r < s.radius then s.dnom + (s.radius + 1 - (min e r + 1))
            else s.dnom) - (s.radius + 1 - (ys.length - 1 - e))
        ops := (padded r ys).drop (e + 1)
        state := .main (if min e r < s.radius then min e r + 1 else min e r)
          (ys.length - 1 - e - 1) }) := by
    by_cases hfull : ys.length = e + r + 1
    · have hbr : s.radius = 0 ∨ ys.length - 1 - e = s.radius := by rw [hrad]; right; omega
      have hr0 : 0 < s.radius := by rw [hrad]; omega
      exact mainStep_eq_drain_full s _ _ _ _ hops2 hd hlt hbr hr0
    · have hbr : ¬ (s.radius = 0 ∨ ys.length - 1 - e = s.radius) := by rw [hrad]; omega
      have ht : 0 < ys.length - 1 - e := by omega
      exact mainStep_eq_drain_mid s _ _ _ _ hops2 hd hlt hbr ht
  rw [hcont]
  simp only [Except.ok.injEq, Prod.mk.injEq, StackBlur.mk.injEq]
  refine ⟨?_, ?_, ?_, ?_, ?_, ?_, ?_⟩
  · rw [hsum, hdnom]
  · exact hrad
  · rw [hstep, hrstep, hcenter, hsum, hrate]
    ring
  · rw [hrstep, hcenter, hrate]
    ring
  · rw [hdnom, hrad]
    split_ifs with hcond
    · have hmin : min e r = e := by omega
      rw [hmin] at hcond ⊢
      omega
    · omega
  · trivial
  · rw [hrad]
    have hm : (if min e r < r then min e r + 1 else min e r) = min (e + 1) r := by
      split_ifs <;> omega
    rw [hm]
    have h2 : ys.length - 1 - e - 1 = ys.length - 1 - (e + 1) := by omega
    rw [h2]

theorem mainStep_fields_none_reset (r : ℕ) (ys : List ℤ) (e : ℕ) (s : StackBlur)
    (hF : Fields r ys e s) (hend : e + 1 = ys.length) :
    mainStep s (min e r) (ys.length - 1 - e) none =
      .ok ((sumWtX r ys ys.length e).tdiv (sumWt r ys.length e),
        { radius := r
          sum := sumWtX r ys ys.length (e + 1)
          rate := sumRhoX r ys ys.length (e + 1)
          dnom := if e < r then sumWt r ys.length e + (r - e) else sumWt r ys.length e
          ops := (padded r ys).drop (e + 1)
          state := .preload 0 0 }) := by
  obtain ⟨hrad, he, hk, hsum, hrate, hdnom, hops⟩ := hF
  have hpos := sumWt_pos (r := r) he
  have hd : s.dnom ≠ 0 := by rw [hdnom]; omega
  have hops2 : s.ops = (padded r ys).getD e 0 :: (padded r ys).drop (e + 1) := by
    rw [hops]; exact drop_padded_cons ys (by omega)
  have hlt : s.radius < ((padded r ys).drop (e + 1)).length := by
    rw [hrad, List.length_drop, padded_length]; omega
  have hcenter : ((padded r ys).drop (e + 1)).getD s.radius 0 = ys.getD e 0 := by
    rw [hrad]; exact drop_padded_center ys he
  have hrstep := sumRhoX_step r ys e he
  have hstep := sumWtX_step r ys e he (by omega)
  have hreset : mainStep s (min e r) (ys.length - 1 - e) none =
      .ok (s.sum.tdiv s.dnom, { s with
        sum := s.sum + (s.rate + (padded r ys).getD e 0 -
          ((padded r ys).drop (e + 1)).getD s.radius 0 * 2)
        rate := s.rate + (padded r ys).getD e 0 -
          ((padded r ys).drop (e + 1)).getD s.radius 0 * 2
        dnom := if min e r < s.radius then s.dnom + (s.radius + 1 - (min e r + 1)) else s.dnom
        ops := (padded r ys).drop (e + 1)
        state := .preload 0 0 }) := by
    by_cases hr0 : 0 < s.radius
    · have hbr : ¬ (s.radius = 0 ∨ ys.length - 1 - e = s.radius) := by
        rw [hrad] at hr0 ⊢; omega
      have ht : ¬ 0 < ys.length - 1 - e := by omega
      exact mainStep_eq_reset_end s _ _ _ _ hops2 hd hlt hbr ht
    · have hbr : s.radius = 0 ∨ ys.length - 1 - e = s.radius := by left; omega
      exact mainStep_eq_reset_zero s _ _ _ _ hops2 hd hlt hbr hr0
  rw [hreset]
  simp only [Except.ok.injEq, Prod.mk.injEq, StackBlur.mk.injEq]
  refine ⟨?_, ?_, ?_, ?_, ?_, ?_, ?_⟩
  · rw [hsum, hdnom]
  · exact hrad
  · rw [hstep, hrstep, hcenter, hsum, hrate]
    ring
  · rw [hrstep, hcenter, hrate]
    ring
  · rw [hdnom, hrad]
    split_ifs with h1 h2 h3
    · have hmin : min e r = e := by omega
      rw [hmin]
      omega
    · exfalso; omega
    · exfalso; omega
    · rfl
  · trivial
  · trivial

theorem wt_zero_e (r j : ℕ) : wt r 0 j = r + 1 - j := by
  unfold wt
  omega

theorem rho_zero_e (r j : ℕ) : rho r 0 j = 1 := by
  unfold rho
  simp

theorem MainInv_cont (r : ℕ) (ys : List ℤ) (e : ℕ) (hend : e + 1 < ys.length)
    (hk : ys.length ≤ e + r + 1) :
    MainInv r ys (e + 1)
      { radius := r
        sum := sumWtX r ys ys.length (e + 1)
        rate := sumRhoX r ys ys.length (e + 1)
        dnom := sumWt r ys.length (e + 1)
        ops := (padded r ys).drop (e + 1)
        state := .main (min (e + 1) r) (ys.length - 1 - (e + 1)) } :=
  ⟨rfl, rfl, hend, by omega, rfl, rfl, rfl, rfl⟩

theorem MainInv_accept (r : ℕ) (ys : List ℤ) (e : ℕ) (x : ℤ) (hlen : ys.length = e + r + 1) :
    MainInv r (ys ++ [x]) (e + 1)
      { radius := r
        sum := sumWtX r (ys ++ [x]) (ys ++ [x]).length (e + 1)
        rate := sumRhoX r (ys ++ [x]) (ys ++ [x]).length (e + 1)
        dnom := sumWt r (ys ++ [x]).length (e + 1)
        ops := (padded r (ys ++ [x])).drop (e + 1)
        state := .main (min (e + 1) r) ((ys ++ [x]).length - 1 - (e + 1)) } :=
  ⟨rfl, rfl, by simp; omega, by simp; omega, rfl, rfl, rfl, rfl⟩

theorem feed_start (s : StackBlur) (t : ℕ) (x : ℤ) (hst : s.state = .preload 0 t) :
    feed s (some x) = .ok (none,
      { radius := s.radius
        sum := x * ((s.radius + 1 : ℕ) : ℤ)
        rate := x
        dnom := s.radius + 1
        ops := List.replicate (s.radius + 1) 0 ++ [x]
        state := .preload 1 t }) := by
  simp only [feed, hst, preloadStep, if_pos rfl, preloadPush]
  simp only [Nat.sub_zero, zero_add]
  rw [if_pos trivial, if_neg (by omega : ¬ s.radius < 0), if_neg (lt_irrefl (s.radius + 1))]

theorem PreInv_start (r : ℕ) (x : ℤ) :
    PreInv r [x]
      { radius := r
        sum := x * ((r + 1 : ℕ) : ℤ)
        rate := x
        dnom := r + 1
        ops := List.replicate (r + 1) 0 ++ [x]
        state := .preload 1 0 } := by
  refine ⟨rfl, by simp, rfl, by simp, by simp, ?_, ?_, ?_, ?_⟩
  · show x * _ = sumWtX r [x] 1 0
    unfold sumWtX
    rw [Finset.sum_range_one, wt_zero_e]
    simp [mul_comm]
  · show x = sumRhoX r [x] 1 0
    unfold sumRhoX
    rw [Finset.sum_range_one, rho_zero_e]
    simp
  · show r + 1 = sumWt r 1 0
    unfold sumWt
    rw [Finset.sum_range_one, wt_zero_e]
    omega
  · show List.replicate (r + 1) 0 ++ [x] = _
    rw [List.drop_zero]
    rfl

theorem feed_preload_eq (s : StackBlur) (i t : ℕ) (x : ℤ) (hst : s.state = .preload i t)
    (h1 : 1 ≤ i) (hle : i ≤ s.radius) :
    feed s (some x) = .ok (none, { s with
      sum := s.sum + x * ((s.radius + 1 - i : ℕ) : ℤ)
      rate := s.rate + x
      dnom := s.dnom + (s.radius + 1 - i)
      ops := s.ops ++ [x]
      state := if s.radius + 1 - i < s.dnom + (s.radius + 1 - i)
        then .preload (i + 1) (t + 1) else .preload (i + 1) t }) := by
  simp only [feed, hst, preloadStep, if_neg (by omega : ¬ i = 0),
    if_neg (by omega : ¬ s.radius < i), preloadPush]

theorem PreInv_push (r : ℕ) (ys : List ℤ) (s : StackBlur) (x : ℤ)
    (hP : PreInv r ys s) (hlen : ys.length ≤ r) :
    ∃ s₂, feed s (some x) = .ok (none, s₂) ∧ PreInv r (ys ++ [x]) s₂ := by
  obtain ⟨hst, hle, hrad, he, hk, hsum, hrate, hdnom, hops⟩ := hP
  have hfeed := feed_preload_eq s ys.length (ys.length - 1) x hst (by omega) (by omega)
  have hd0 : 0 < s.dnom := by
    rw [hdnom]
    have := sumWt_pos (r := r) he
    omega
  have e1 : (ys ++ [x]).length = ys.length + 1 := by simp
  refine ⟨_, hfeed, ?_, ?_, hrad, ?_, ?_, ?_, ?_, ?_, ?_⟩
  · show (if _ then _ else _) = _
    rw [if_pos (by omega : s.radius + 1 - ys.length < s.dnom + (s.radius + 1 - ys.length))]
    rw [e1]
    have e2 : ys.length - 1 + 1 = ys.length + 1 - 1 := by omega
    rw [e2]
  · rw [e1]; omega
  · rw [e1]; omega
  · rw [e1]; omega
  · show s.sum + _ = _
    rw [e1, sumWtX_snoc, wt_zero_e, hsum, hrad]
    ring
  · show s.rate + x = _
    rw [e1, sumRhoX_snoc, rho_zero_e, hrate]
    ring
  · show s.dnom + _ = _
    rw [e1, sumWt_snoc, wt_zero_e, hdnom, hrad]
  · show s.ops ++ [x] = _
    rw [List.drop_zero, padded_append, hops, List.drop_zero]

theorem feed_idle_none (s : StackBlur) (hst : s.state = .preload 0 0) :
    feed s none = .ok (none, s) := by
  simp only [feed, hst, preloadStep]
  rw [if_pos trivial]

theorem feed_drain_assert (s : StackBlur) (l t : ℕ) (x : ℤ) (hst : s.state = .main l t)
    (ht : t < s.radius) (hd : s.dnom ≠ 0) (hlen : s.radius + 2 ≤ s.ops.length) :
    feed s (some x) = .error .assertFailed := by
  simp only [feed, hst]
  rw [mainStep_eq_assert s l t x hd hlen (by omega : ¬ (s.radius = 0 ∨ t = s.radius))]

theorem feed_preload_full (r : ℕ) (ys : List ℤ) (s : StackBlur) (x : ℤ)
    (hP : PreInv r ys s) (hlen : ys.length = r + 1) :
    feed s (some x) = .ok (some ((sumWtX r ys ys.length 0).tdiv (sumWt r ys.length 0)),
      { radius := r
        sum := sumWtX r (ys ++ [x]) (ys ++ [x]).length 1
        rate := sumRhoX r (ys ++ [x]) (ys ++ [x]).length 1
        dnom := sumWt r (ys ++ [x]).length 1
        ops := (padded r (ys ++ [x])).drop 1
        state := .main (min 1 r) ((ys ++ [x]).length - 1 - 1) }) := by
  obtain ⟨hst, hle, hF⟩ := hP
  have hrad := hF.1
  have hF2 : Fields r ys 0 { s with state := BlurState.main 0 (ys.length - 1) } := hF
  have hmain := mainStep_fields_some r ys 0 _ x hF2 (by omega)
  rw [show min 0 r = 0 by omega] at hmain
  simp only [Nat.sub_zero] at hmain
  simp only [feed, hst, preloadStep, if_neg (by omega : ¬ ys.length = 0),
    if_pos (by omega : s.radius < ys.length)]
  rw [hmain]

theorem feed_preload_none_cont (r : ℕ) (ys : List ℤ) (s : StackBlur)
    (hP : PreInv r ys s) (h2 : 1 < ys.length) :
    feed s none = .ok (some ((sumWtX r ys ys.length 0).tdiv (sumWt r ys.length 0)),
      { radius := r
        sum := sumWtX r ys ys.length 1
        rate := sumRhoX r ys ys.length 1
        dnom := sumWt r ys.length 1
        ops := (padded r ys).drop 1
        state := .main (min 1 r) (ys.length - 1 - 1) }) := by
  obtain ⟨hst, hle, hF⟩ := hP
  have hF2 : Fields r ys 0 { s with state := BlurState.main 0 (ys.length - 1) } := hF
  have hmain := mainStep_fields_none_cont r ys 0 _ hF2 (by omega)
  rw [show min 0 r = 0 by omega] at hmain
  simp only [Nat.sub_zero] at hmain
  simp only [feed, hst, preloadStep, if_neg (by omega : ¬ ys.length = 0)]
  rw [hmain]

theorem feed_preload_none_reset (r : ℕ) (ys : List ℤ) (s : StackBlur)
    (hP : PreInv r ys s) (h2 : ys.length = 1) :
    feed s none = .ok (some ((sumWtX r ys ys.length 0).tdiv (sumWt r ys.length 0)),
      { radius := r
        sum := sumWtX r ys ys.length 1
        rate := sumRhoX r ys ys.length 1
        dnom := if 0 < r then sumWt r ys.length 0 + r else sumWt r ys.length 0
        ops := (padded r ys).drop 1
        state := .preload 0 0 }) := by
  obtain ⟨hst, hle, hF⟩ := hP
  have hF2 : Fields r ys 0 { s with state := BlurState.main 0 (ys.length - 1) } := hF
  have hmain := mainStep_fields_none_reset r ys 0 _ hF2 (by omega)
  rw [show min 0 r = 0 by omega] at hmain
  simp only [Nat.sub_zero] at hmain
  simp only [feed, hst, preloadStep, if_neg (by omega : ¬ ys.length = 0)]
  rw [hmain]

theorem feed_main_some (r : ℕ) (ys : List ℤ) (e : ℕ) (s : StackBlur) (x : ℤ)
    (hM : MainInv r ys e s) (hlen : ys.length = e + r + 1) :
    feed s (some x) = .ok (some ((sumWtX r ys ys.length e).tdiv (sumWt r ys.length e)),
      { radius := r
        sum := sumWtX r (ys ++ [x]) (ys ++ [x]).length (e + 1)
        rate := sumRhoX r (ys ++ [x]) (ys ++ [x]).length (e + 1)
        dnom := sumWt r (ys ++ [x]).length (e + 1)
        ops := (padded r (ys ++ [x])).drop (e + 1)
        state := .main (min (e + 1) r) ((ys ++ [x]).length - 1 - (e + 1)) }) := by
  obtain ⟨hst, hF⟩ := hM
  simp only [feed, hst]
  rw [mainStep_fields_some r ys e s x hF hlen]

theorem feed_main_none_cont (r : ℕ) (ys : List ℤ) (e : ℕ) (s : StackBlur)
    (hM : MainInv r ys e s) (hend : e + 1 < ys.length) :
    feed s none = .ok (some ((sumWtX r ys ys.length e).tdiv (sumWt r ys.length e)),
      { radius := r
        sum := sumWtX r ys ys.length (e + 1)
        rate := sumRhoX r ys ys.length (e + 1)
        dnom := sumWt r ys.length (e + 1)
        ops := (padded r ys).drop (e + 1)
        state := .main (min (e + 1) r) (ys.length - 1 - (e + 1)) }) := by
  obtain ⟨hst, hF⟩ := hM
  simp only [feed, hst]
  rw [mainStep_fields_none_cont r ys e s hF hend]

theorem feed_main_none_reset (r : ℕ) (ys : List ℤ) (e : ℕ) (s : StackBlur)
    (hM : MainInv r ys e s) (hend : e + 1 = ys.length) :
    feed s none = .ok (some ((sumWtX r ys ys.length e).tdiv (sumWt r ys.length e)),
      { radius := r
        sum := sumWtX r ys ys.length (e + 1)
        rate := sumRhoX r ys ys.length (e + 1)
        dnom := if e < r then sumWt r ys.length e + (r - e) else sumWt r ys.length e
        ops := (padded r ys).drop (e + 1)
        state := .preload 0 0 }) := by
  obtain ⟨hst, hF⟩ := hM
  simp only [feed, hst]
  rw [mainStep_fields_none_reset r ys e s hF hend]

theorem runFeeds_append (a : List ℤ) : ∀ (b : List ℤ) (s sa sb : StackBlur)
    (oa ob : List ℤ), runFeeds s a = .ok (oa, sa) → runFeeds sa b = .ok (ob, sb) →
    runFeeds s (a ++ b) = .ok (oa ++ ob, sb) := by
  induction a with
  | nil =>
    intro b s sa sb oa ob ha hb
    simp only [runFeeds, Except.ok.injEq, Prod.mk.injEq] at ha
    obtain ⟨h1, h2⟩ := ha
    rw [List.nil_append, ← h1, List.nil_append, h2]
    exact hb
  | cons x a ih =>
    intro b s sa sb oa ob ha hb
    rw [List.cons_append]
    rw [runFeeds] at ha ⊢
    match hfeed : feed s (some x) with
    | .error p => rw [hfeed] at ha; exact absurd ha (by simp)
    | .ok (none, s₁) =>
      simp only [hfeed] at ha ⊢
      exact ih b s₁ sa sb oa ob ha hb
    | .ok (some v, s₁) =>
      simp only [hfeed] at ha ⊢
      match hrun : runFeeds s₁ a with
      | .error p => rw [hrun] at ha; exact absurd ha (by simp)
      | .ok (outs, s₂) =>
        simp only [hrun] at ha
        simp only [Except.ok.injEq, Prod.mk.injEq] at ha
        obtain ⟨h1, h2⟩ := ha
        rw [ih b s₁ s₂ sb outs ob hrun (h2 ▸ hb)]
        rw [← h1]
        rfl

theorem run_from_pre (r : ℕ) : ∀ (rest ys : List ℤ) (s : StackBlur), PreInv r ys s →
    ys.length + rest.length ≤ r + 1 →
    ∃ s₂, runFeeds s rest = .ok ([], s₂) ∧ PreInv r (ys ++ rest) s₂ := by
  intro rest
  induction rest with
  | nil =>
    intro ys s hP hlen
    exact ⟨s, rfl, by rw [List.append_nil]; exact hP⟩
  | cons x rest ih =>
    intro ys s hP hlen
    obtain ⟨s₂, hfeed, hP₂⟩ := PreInv_push r ys s x hP (by
      have := hP.2.2.2.1
      simp at hlen
      omega)
    obtain ⟨s₃, hrun, hP₃⟩ := ih (ys ++ [x]) s₂ hP₂ (by simp at hlen ⊢; omega)
    refine ⟨s₃, ?_, by rw [List.append_assoc] at hP₃; simpa using hP₃⟩
    rw [runFeeds, hfeed]
    exact hrun

theorem run_steady (r : ℕ) : ∀ (rest ys : List ℤ) (e : ℕ) (s : StackBlur), MainInv r ys e s →
    ys.length = e + r + 1 →
    ∃ s₂, runFeeds s rest =
        .ok ((List.range' e rest.length).map (triangularAt r (ys ++ rest)), s₂) ∧
      MainInv r (ys ++ rest) (e + rest.length) s₂ := by
  intro rest
  induction rest with
  | nil =>
    intro ys e s hM hlen
    exact ⟨s, by simp [runFeeds], by simpa using hM⟩
  | cons x rest ih =>
    intro ys e s hM hlen
    have hfeed := feed_main_some r ys e s x hM hlen
    have hM₂ := MainInv_accept r ys e x hlen
    obtain ⟨s₃, hrun, hM₃⟩ := ih (ys ++ [x]) (e + 1) _ hM₂ (by simp; omega)
    have hassoc : (ys ++ [x]) ++ rest = ys ++ (x :: rest) := by
      rw [List.append_assoc]; rfl
    rw [hassoc] at hrun hM₃
    refine ⟨s₃, ?_, by have h2 : e + (rest.length + 1) = e + 1 + rest.length := by omega
                       rw [List.length_cons, h2]; exact hM₃⟩
    rw [runFeeds]
    simp only [hfeed, hrun]
    have hv : (sumWtX r ys ys.length e).tdiv (sumWt r ys.length e)
        = triangularAt r (ys ++ x :: rest) e := by
      unfold triangularAt
      rw [sumWtX_extend r ys (x :: rest) e (by omega),
        sumWt_extend (r := r) (e := e) (by omega : e + r + 1 ≤ ys.length)
          (by simp : ys.length ≤ (ys ++ x :: rest).length)]
    rw [List.length_cons, List.range'_succ, List.map_cons, hv]

theorem drains_from_main (r : ℕ) : ∀ (n : ℕ) (ys : List ℤ) (e : ℕ) (s : StackBlur),
    MainInv r ys e s → ys.length - e = n →
    Drains s ((List.range' e n).map (triangularAt r ys)) := by
  intro n
  induction n with
  | zero =>
    intro ys e s hM hn
    have := hM.2.2.1
    omega
  | succ n ih =>
    intro ys e s hM hn
    have he := hM.2.2.1
    by_cases hend : e + 1 = ys.length
    · have hn0 : n = 0 := by omega
      subst hn0
      have hfeed := feed_main_none_reset r ys e s hM hend
      rw [List.range'_succ]
      exact Drains.cons hfeed (Drains.nil (feed_idle_none _ rfl))
    · have hfeed := feed_main_none_cont r ys e s hM (by omega)
      have hM₂ := MainInv_cont r ys e (by omega) hM.2.2.2.1
      have hdr := ih ys (e + 1) _ hM₂ (by omega)
      rw [List.range'_succ]
      exact Drains.cons hfeed hdr

theorem drains_from_pre (r : ℕ) (ys : List ℤ) (s : StackBlur) (hP : PreInv r ys s) :
    Drains s ((List.range' 0 ys.length).map (triangularAt r ys)) := by
  have he : 0 < ys.length := hP.2.2.2.1
  by_cases h1 : ys.length = 1
  · have hfeed := feed_preload_none_reset r ys s hP h1
    rw [h1, List.range'_succ]
    exact Drains.cons hfeed (Drains.nil (feed_idle_none _ rfl))
  · have hfeed := feed_preload_none_cont r ys s hP (by omega)
    have hM₂ : MainInv r ys 1 _ := MainInv_cont r ys 0 (by omega) (by
      have := hP.2.2.2.2.1
      omega)
    have hdr := drains_from_main r (ys.length - 1) ys 1 _ hM₂ (by omega)
    have hsh : List.range' 0 ys.length = 0 :: List.range' 1 (ys.length - 1) := by
      have h2 : ys.length = (ys.length - 1) + 1 := by omega
      conv_lhs => rw [h2]
      rw [List.range'_succ]
    rw [hsh]
    exact Drains.cons hfeed hdr

theorem drainGo_of_drains : ∀ (outs : List ℤ) (g : StackBlur), Drains g outs →
    ∀ n, outs.length < n → ∃ g₂, drainGo n g = .ok (outs, g₂) := by
  intro outs g hdr
  induction hdr with
  | @nil g g₁ hfeed =>
    intro n hn
    match n, hn with
    | m + 1, _ =>
      refine ⟨g₁, ?_⟩
      rw [drainGo]
      simp only [hfeed]
  | @cons g g₁ b outs hfeed hdr ih =>
    intro n hn
    match n, hn with
    | m + 1, hm =>
      obtain ⟨g₂, hgo⟩ := ih m (by simpa using hm)
      refine ⟨g₂, ?_⟩
      rw [drainGo]
      simp only [hfeed, hgo]

theorem blur_parts (r : ℕ) (ops0 xs : List ℤ) :
    ∃ s₁ o1 o2, runFeeds (StackBlur.withOps r ops0) xs = .ok (o1, s₁) ∧ Drains s₁ o2 ∧
      o1 = (List.range' 0 (xs.length - (r + 1))).map (triangularAt r xs) ∧
      o2 = (List.range' (xs.length - (r + 1)) (min xs.length (r + 1))).map (triangularAt r xs) := by
  match xs with
  | [] =>
    refine ⟨StackBlur.withOps r ops0, [], [], rfl,
      Drains.nil (feed_idle_none _ rfl), by simp, by simp⟩
  | x :: xs' =>
    have hfeed0 : feed (StackBlur.withOps r ops0) (some x) = .ok (none,
        { radius := r
          sum := x * ((r + 1 : ℕ) : ℤ)
          rate := x
          dnom := r + 1
          ops := List.replicate (r + 1) 0 ++ [x]
          state := .preload 1 0 }) := feed_start _ 0 x rfl
    have hP0 := PreInv_start r x
    by_cases hsmall : (x :: xs').length ≤ r + 1
    · obtain ⟨s₁, hrun, hP₁⟩ := run_from_pre r xs' [x] _ hP0 (by simp at hsmall ⊢; omega)
      have hx : ([x] : List ℤ) ++ xs' = x :: xs' := rfl
      rw [hx] at hP₁
      have hdr := drains_from_pre r (x :: xs') s₁ hP₁
      refine ⟨s₁, [], _, ?_, hdr, ?_, ?_⟩
      · rw [runFeeds]
        simp only [hfeed0]
        exact hrun
      · have h0 : (x :: xs').length - (r + 1) = 0 := by simp at hsmall ⊢; omega
        rw [h0]
        simp
      · have h0 : (x :: xs').length - (r + 1) = 0 := by simp at hsmall ⊢; omega
        have h1 : min (x :: xs').length (r + 1) = (x :: xs').length := by
          simp at hsmall ⊢; omega
        rw [h0, h1]
    · have hlen_take : (List.take r xs').length = r := by
        rw [List.length_take]
        simp at hsmall
        omega
      obtain ⟨s₁, hrun1, hP₁⟩ := run_from_pre r (List.take r xs') [x] _ hP0
        (by simp [hlen_take]; omega)
      match hdrop : List.drop r xs' with
      | [] =>
        exfalso
        have := List.length_drop r xs'
        rw [hdrop] at this
        simp at this hsmall
        omega
      | y :: rest3 =>
        have hys1 : (([x] : List ℤ) ++ List.take r xs').length = r + 1 := by
          simp [hlen_take]
        have hfeedy := feed_preload_full r ([x] ++ List.take r xs') s₁ y hP₁ hys1
        have hM₂ := MainInv_accept r ([x] ++ List.take r xs') 0 y (by rw [hys1]; omega)
        obtain ⟨s₃, hrun2, hM₃⟩ := run_steady r rest3 (([x] ++ List.take r xs') ++ [y]) 1 _
          hM₂ (by simp [hlen_take]; omega)
        have htd : (List.take r xs') ++ (y :: rest3) = xs' := by
          rw [← hdrop]
          exact List.take_append_drop r xs'
        have hxs : ((([x] ++ List.take r xs') ++ [y]) ++ rest3 : List ℤ) = x :: xs' := by
          simp only [List.append_assoc, List.singleton_append, List.cons_append,
            List.nil_append]
          rw [htd]
        rw [hxs] at hrun2 hM₃
        have hlenxs : (x :: xs').length = r + 2 + rest3.length := by
          have := List.take_append_drop r xs'
          rw [hdrop] at this
          have h2 := congrArg List.length this
          simp [hlen_take] at h2
          simp
          omega
        have he1 : (x :: xs').length - (r + 1) = 1 + rest3.length := by omega
        have hestar : 1 + rest3.length = (x :: xs').length - (r + 1) := he1.symm
        have hdr := drains_from_main r (r + 1) (x :: xs') (1 + rest3.length) s₃
          hM₃ (by omega)
        refine ⟨s₃,
          (sumWtX r ([x] ++ List.take r xs') ([x] ++ List.take r xs').length 0).tdiv
              (sumWt r ([x] ++ List.take r xs').length 0) ::
            (List.range' 1 rest3.length).map (triangularAt r (x :: xs')),
          (List.range' (1 + rest3.length) (r + 1)).map (triangularAt r (x :: xs')),
          ?_, hdr, ?_, ?_⟩
        · show runFeeds (StackBlur.withOps r ops0) (x :: xs') = _
          rw [runFeeds]
          simp only [hfeed0]
          have hx2 : xs' = List.take r xs' ++ (y :: rest3) := by
            rw [← hdrop]
            exact (List.take_append_drop r xs').symm
          have hstep2 : runFeeds s₁ (y :: rest3) = .ok
              ((sumWtX r ([x] ++ List.take r xs') ([x] ++ List.take r xs').length 0).tdiv
                (sumWt r ([x] ++ List.take r xs').length 0) ::
                (List.range' 1 rest3.length).map (triangularAt r (x :: xs')), s₃) := by
            rw [runFeeds]
            simp only [hfeedy, hrun2]
          conv_lhs => rw [hx2]
          have := runFeeds_append (List.take r xs') (y :: rest3) _ s₁ s₃ [] _ hrun1 hstep2
          simpa using this
        · rw [he1]
          have hr0 : List.range' 0 (1 + rest3.length) = 0 :: List.range' 1 rest3.length := by
            rw [Nat.add_comm 1 rest3.length]
            rw [List.range'_succ]
          rw [hr0, List.map_cons]
          congr 1
          have hxs2 : (([x] ++ List.take r xs') ++ (y :: rest3) : List ℤ) = x :: xs' := by
            rw [← hxs]
            simp [List.append_assoc]
          have hext := sumWtX_extend r ([x] ++ List.take r xs') (y :: rest3) 0
            (by rw [hys1]; omega)
          rw [hxs2] at hext
          have hbig : r ≤ xs'.length := by
            have h9 := hsmall
            simp at h9
            omega
          have hwext := sumWt_extend (r := r) (k := ([x] ++ List.take r xs').length)
            (K := (x :: xs').length) (e := 0) (by rw [hys1]; omega)
            (by rw [hys1]; simp; omega)
          unfold triangularAt
          rw [hext, hwext]
        · rw [he1]
          have hmin : min (x :: xs').length (r + 1) = r + 1 := by
            rw [hlenxs]; omega
          rw [hmin]

theorem blurWith_spec (r : ℕ) (ops0 xs : List ℤ) :
    ∃ s₂, blurWith r ops0 xs = .ok ((List.range xs.length).map (triangularAt r xs), s₂) := by
  obtain ⟨s₁, o1, o2, hrun, hdr, ho1, ho2⟩ := blur_parts r ops0 xs
  have hlen2 : o2.length < r + 2 := by
    rw [ho2]
    simp [List.length_range']
  obtain ⟨g₂, hgo⟩ := drainGo_of_drains o2 s₁ hdr (r + 2) hlen2
  refine ⟨g₂, ?_⟩
  unfold blurWith
  simp only [hrun, hgo]
  have hcat : o1 ++ o2 = (List.range xs.length).map (triangularAt r xs) := by
    rw [ho1, ho2, ← List.map_append]
    have h1 : List.range' 0 (xs.length - (r + 1)) ++
        List.range' (xs.length - (r + 1)) (min xs.length (r + 1)) = List.range' 0 xs.length := by
      have h2 := List.range'_append_1 0 (xs.length - (r + 1)) (min xs.length (r + 1))
      rw [Nat.zero_add] at h2
      rw [h2]
      congr 1
      omega
    rw [h1, List.range_eq_range']
  rw [hcat]

theorem blur_spec (r : ℕ) (xs : List ℤ) :
    blur r xs = .ok ((List.range xs.length).map (triangularAt r xs)) := by
  obtain ⟨s₂, h⟩ := blurWith_spec r [] xs
  unfold blur
  rw [h]

theorem iterCollect_drains (outs : List ℤ) (g : StackBlur) (hdr : Drains g outs) :
    ∀ (flag : Bool) (n : ℕ), outs.length < n → iterCollect n ⟨[], g, flag⟩ = .ok outs := by
  induction hdr with
  | @nil g g₁ hfeed =>
    intro flag n hn
    match n with
    | m + 1 =>
      rw [iterCollect]
      have hnext : iterNext ⟨[], g, flag⟩ = .ok (none, ⟨[], g₁, false⟩) := by
        cases flag with
        | true =>
          rw [iterNext]
          simp only [hfeed]
          rfl
        | false =>
          rw [iterNext]
          show iterLoop g [] = _
          rw [iterLoop]
          simp only [hfeed]
          rfl
      rw [hnext]
  | @cons g g₁ b outs hfeed hdr ih =>
    intro flag n hn
    match n, hn with
    | m + 1, hm =>
      rw [iterCollect]
      have hnext : iterNext ⟨[], g, flag⟩ = .ok (some b, ⟨[], g₁, true⟩) := by
        cases flag with
        | true =>
          rw [iterNext]
          simp only [hfeed]
          rfl
        | false =>
          rw [iterNext]
          show iterLoop g [] = _
          rw [iterLoop]
          simp only [hfeed]
          rfl
      simp only [hnext]
      rw [ih true m (by simpa using hm)]

theorem iterCollect_run : ∀ (xs : List ℤ) (g : StackBlur) (o1 o2 : List ℤ)
    (s₁ : StackBlur) (n : ℕ), runFeeds g xs = .ok (o1, s₁) → Drains s₁ o2 →
    o1.length + o2.length < n → iterCollect n ⟨xs, g, false⟩ = .ok (o1 ++ o2) := by
  intro xs
  induction xs with
  | nil =>
    intro g o1 o2 s₁ n hrun hdr hn
    simp only [runFeeds, Except.ok.injEq, Prod.mk.injEq] at hrun
    obtain ⟨h1, h2⟩ := hrun
    subst h2
    rw [← h1, List.nil_append]
    rw [← h1] at hn
    exact iterCollect_drains o2 _ hdr false n (by simpa using hn)
  | cons x rest ih =>
    intro g o1 o2 s₁ n hrun hdr hn
    rw [runFeeds] at hrun
    match hfeed : feed g (some x) with
    | .error p =>
      rw [hfeed] at hrun
      exact absurd hrun (by simp)
    | .ok (none, g₁) =>
      simp only [hfeed] at hrun
      match n with
      | m + 1 =>
        have hstep : iterCollect (m + 1) ⟨x :: rest, g, false⟩
            = iterCollect (m + 1) ⟨rest, g₁, false⟩ := by
          rw [iterCollect, iterCollect]
          have h1 : iterNext ⟨x :: rest, g, false⟩ = iterLoop g₁ rest := by
            rw [iterNext]
            show iterLoop g (x :: rest) = _
            rw [iterLoop]
            simp only [hfeed]
          have h2 : iterNext ⟨rest, g₁, false⟩ = iterLoop g₁ rest := by
            rw [iterNext]
          rw [h1, h2]
        rw [hstep]
        exact ih g₁ o1 o2 s₁ (m + 1) hrun hdr hn
    | .ok (some b, g₁) =>
      simp only [hfeed] at hrun
      match hrun2 : runFeeds g₁ rest with
      | .error p =>
        rw [hrun2] at hrun
        exact absurd hrun (by simp)
      | .ok (outs, s₂) =>
        rw [hrun2] at hrun
        simp only [Except.ok.injEq, Prod.mk.injEq] at hrun
        obtain ⟨h1, h2⟩ := hrun
        match n, hn with
        | m + 1, hm =>
          rw [iterCollect]
          have h3 : iterNext ⟨x :: rest, g, false⟩ = .ok (some b, ⟨rest, g₁, false⟩) := by
            rw [iterNext]
            show iterLoop g (x :: rest) = _
            rw [iterLoop]
            simp only [hfeed]
          simp only [h3]
          rw [ih g₁ outs o2 s₂ m hrun2 (h2 ▸ hdr) (by rw [← h1] at hm; simp at hm; omega)]
          rw [← h1]
          rfl

theorem Fields_dnom_pos {r : ℕ} {ys : List ℤ} {e : ℕ} {s : StackBlur}
    (hF : Fields r ys e s) : 1 ≤ s.dnom := by
  obtain ⟨hrad, he, hk, hsum, hrate, hdnom, hops⟩ := hF
  rw [hdnom]
  have := sumWt_pos (r := r) he
  omega

theorem Fields_ops_long {r : ℕ} {ys : List ℤ} {e : ℕ} {s : StackBlur}
    (hF : Fields r ys e s) : s.radius + 2 ≤ s.ops.length := by
  obtain ⟨hrad, he, hk, hsum, hrate, hdnom, hops⟩ := hF
  rw [hops, List.length_drop, padded_length, hrad]
  omega

theorem Good_step {s : StackBlur} {item out : Option ℤ} {s₂ : StackBlur}
    (hG : Good s) (hstep : feed s item = .ok (out, s₂)) : Good s₂ := by
  rcases hG with hidle | ⟨ys, hP⟩ | ⟨ys, e, hM⟩
  · match item with
    | some x =>
      rw [feed_start s 0 x hidle] at hstep
      simp only [Except.ok.injEq, Prod.mk.injEq] at hstep
      rw [← hstep.2]
      exact Or.inr (Or.inl ⟨[x], PreInv_start s.radius x⟩)
    | none =>
      rw [feed_idle_none s hidle] at hstep
      simp only [Except.ok.injEq, Prod.mk.injEq] at hstep
      rw [← hstep.2]
      exact Or.inl hidle
  · have hle := hP.2.1
    match item with
    | some x =>
      by_cases hfull : ys.length = s.radius + 1
      · rw [feed_preload_full s.radius ys s x hP hfull] at hstep
        simp only [Except.ok.injEq, Prod.mk.injEq] at hstep
        rw [← hstep.2]
        exact Or.inr (Or.inr ⟨ys ++ [x], 1,
          MainInv_accept s.radius ys 0 x (by omega)⟩)
      · obtain ⟨s₃, hfeed, hP₃⟩ := PreInv_push s.radius ys s x hP (by omega)
        rw [hfeed] at hstep
        simp only [Except.ok.injEq, Prod.mk.injEq] at hstep
        rw [← hstep.2]
        have hrad3 : s₃.radius = s.radius := hP₃.2.2.1.symm ▸ rfl
        exact Or.inr (Or.inl ⟨ys ++ [x], by rw [hP₃.2.2.1]; exact hP₃⟩)
    | none =>
      by_cases h1 : ys.length = 1
      · rw [feed_preload_none_reset s.radius ys s hP h1] at hstep
        simp only [Except.ok.injEq, Prod.mk.injEq] at hstep
        rw [← hstep.2]
        exact Or.inl rfl
      · have he := hP.2.2.2.1
        rw [feed_preload_none_cont s.radius ys s hP (by omega)] at hstep
        simp only [Except.ok.injEq, Prod.mk.injEq] at hstep
        rw [← hstep.2]
        exact Or.inr (Or.inr ⟨ys, 1, MainInv_cont s.radius ys 0 (by omega) (by omega)⟩)
  · obtain ⟨hst, hF⟩ := hM
    have he := hF.2.1
    have hk := hF.2.2.1
    match item with
    | some x =>
      by_cases hfull : ys.length = e + s.radius + 1
      · rw [feed_main_some s.radius ys e s x ⟨hst, hF⟩ hfull] at hstep
        simp only [Except.ok.injEq, Prod.mk.injEq] at hstep
        rw [← hstep.2]
        exact Or.inr (Or.inr ⟨ys ++ [x], e + 1, MainInv_accept s.radius ys e x hfull⟩)
      · exfalso
        have hassert := feed_drain_assert s (min e s.radius) (ys.length - 1 - e) x hst
          (by omega) (by have := Fields_dnom_pos hF; omega) (Fields_ops_long hF)
        rw [hassert] at hstep
        exact absurd hstep (by simp)
    | none =>
      by_cases hend : e + 1 = ys.length
      · rw [feed_main_none_reset s.radius ys e s ⟨hst, hF⟩ hend] at hstep
        simp only [Except.ok.injEq, Prod.mk.injEq] at hstep
        rw [← hstep.2]
        exact Or.inl rfl
      · rw [feed_main_none_cont s.radius ys e s ⟨hst, hF⟩ (by omega)] at hstep
        simp only [Except.ok.injEq, Prod.mk.injEq] at hstep
        rw [← hstep.2]
        exact Or.inr (Or.inr ⟨ys, e + 1, MainInv_cont s.radius ys e (by omega) hk⟩)

theorem Reachable_good {s : StackBlur} (h : Reachable s) : Good s := by
  induction h with
  | base r ops0 => exact Or.inl rfl
  | step hr hfeed ih => exact Good_step ih hfeed

theorem feed_good_not_div (s : StackBlur) (hG : Good s) (item : Option ℤ) :
    feed s item ≠ .error .divByZero := by
  rcases hG with hidle | ⟨ys, hP⟩ | ⟨ys, e, hM⟩
  · match item with
    | some x => rw [feed_start s 0 x hidle]; simp
    | none => rw [feed_idle_none s hidle]; simp
  · have hle := hP.2.1
    match item with
    | some x =>
      by_cases hfull : ys.length = s.radius + 1
      · rw [feed_preload_full s.radius ys s x hP hfull]
        simp
      · obtain ⟨s₃, hfeed, hP₃⟩ := PreInv_push s.radius ys s x hP (by omega)
        rw [hfeed]
        simp
    | none =>
      by_cases h1 : ys.length = 1
      · rw [feed_preload_none_reset s.radius ys s hP h1]
        simp
      · have he := hP.2.2.2.1
        rw [feed_preload_none_cont s.radius ys s hP (by omega)]
        simp
  · obtain ⟨hst, hF⟩ := hM
    have he := hF.2.1
    have hk := hF.2.2.1
    match item with
    | some x =>
      by_cases hfull : ys.length = e + s.radius + 1
      · rw [feed_main_some s.radius ys e s x ⟨hst, hF⟩ hfull]
        simp
      · rw [feed_drain_assert s (min e s.radius) (ys.length - 1 - e) x hst
          (by omega) (by have := Fields_dnom_pos hF; omega) (Fields_ops_long hF)]
        simp
    | none =>
      by_cases hend : e + 1 = ys.length
      · rw [feed_main_none_reset s.radius ys e s ⟨hst, hF⟩ hend]
        simp
      · rw [feed_main_none_cont s.radius ys e s ⟨hst, hF⟩ (by omega)]
        simp

theorem good_main_dnom_pos (s : StackBlur) (hG : Good s) (l t : ℕ)
    (hst : s.state = .main l t) : 1 ≤ s.dnom := by
  rcases hG with hidle | ⟨ys, hP⟩ | ⟨ys, e, hM⟩
  · rw [hidle] at hst
    exact absurd hst (by simp)
  · rw [hP.1] at hst
    exact absurd hst (by simp)
  · exact Fields_dnom_pos hM.2

theorem wt_radius_zero (e j : ℕ) : wt 0 e j = if j = e then 1 else 0 := by
  unfold wt
  split_ifs <;> omega

theorem sumWt_radius_zero {k e : ℕ} (he : e < k) : sumWt 0 k e = 1 := by
  unfold sumWt
  have h1 : ∀ j ∈ Finset.range k, wt 0 e j = if j = e then 1 else 0 :=
    fun j _ => wt_radius_zero e j
  rw [Finset.sum_congr rfl h1, Finset.sum_ite_eq' (Finset.range k) e (fun _ => 1)]
  simp [he]

theorem sumWtX_radius_zero (xs : List ℤ) {e : ℕ} (he : e < xs.length) :
    sumWtX 0 xs xs.length e = xs.getD e 0 := by
  unfold sumWtX
  have h1 : ∀ j ∈ Finset.range xs.length, (wt 0 e j : ℤ) * xs.getD j 0
      = if j = e then xs.getD j 0 else 0 := by
    intro j _
    rw [wt_radius_zero]
    split_ifs <;> simp
  rw [Finset.sum_congr rfl h1, sum_ite_coeff _ he]

theorem triangularAt_radius_zero (xs : List ℤ) {e : ℕ} (he : e < xs.length) :
    triangularAt 0 xs e = xs.getD e 0 := by
  unfold triangularAt
  rw [sumWt_radius_zero he, sumWtX_radius_zero xs he]
  simp

theorem map_getD_range (xs : List ℤ) :
    (List.range xs.length).map (fun e => xs.getD e 0) = xs := by
  apply List.ext_getElem (by simp)
  intro i h1 h2
  simp only [List.getElem_map, List.getElem_range]
  rw [List.getD_eq_getElem _ _ h2]

theorem getD_replicate_val (n : ℕ) (c : ℤ) {j : ℕ} (hj : j < n) :
    (List.replicate n c).getD j 0 = c := by
  rw [List.getD_eq_getElem _ _ (by simpa using hj)]
  simp

theorem triangularAt_const (r n : ℕ) (c : ℤ) {e : ℕ} (he : e < n) :
    triangularAt r (List.replicate n c) e = c := by
  unfold triangularAt
  have hlen : (List.replicate n c).length = n := by simp
  have h1 : sumWtX r (List.replicate n c) (List.replicate n c).length e
      = ((sumWt r n e : ℕ) : ℤ) * c := by
    unfold sumWtX sumWt
    rw [hlen, Nat.cast_sum, Finset.sum_mul]
    refine Finset.sum_congr rfl (fun j hj => ?_)
    rw [Finset.mem_range] at hj
    rw [getD_replicate_val n c hj]
  rw [h1, hlen]
  have hpos : sumWt r n e ≠ 0 := by
    have := sumWt_pos (r := r) he
    omega
  refine Int.mul_tdiv_cancel_left c ?_
  simpa using hpos

theorem wt_reflect {r N e j : ℕ} (he : e < N) (hj : j < N) :
    wt r (N - 1 - e) (N - 1 - j) = wt r e j := by
  unfold wt
  omega

theorem reverse_getD (xs : List ℤ) {j : ℕ} (hj : j < xs.length) :
    xs.reverse.getD j 0 = xs.getD (xs.length - 1 - j) 0 := by
  rw [List.getD_eq_getElem _ _ (by simpa using hj), List.getElem_reverse,
    List.getD_eq_getElem _ _ (by omega)]

theorem sumWtX_reverse (r : ℕ) (xs : List ℤ) {e : ℕ} (he : e < xs.length) :
    sumWtX r xs.reverse xs.reverse.length e = sumWtX r xs xs.length (xs.length - 1 - e) := by
  unfold sumWtX
  rw [List.length_reverse]
  have h1 : ∀ j ∈ Finset.range xs.length, (wt r e j : ℤ) * xs.reverse.getD j 0
      = (fun i => (wt r (xs.length - 1 - e) i : ℤ) * xs.getD i 0) (xs.length - 1 - j) := by
    intro j hj
    rw [Finset.mem_range] at hj
    show (wt r e j : ℤ) * xs.reverse.getD j 0
        = (wt r (xs.length - 1 - e) (xs.length - 1 - j) : ℤ) * xs.getD (xs.length - 1 - j) 0
    rw [reverse_getD xs hj, wt_reflect he hj]
  rw [Finset.sum_congr rfl h1,
    Finset.sum_range_reflect (fun i => (wt r (xs.length - 1 - e) i : ℤ) * xs.getD i 0)]

theorem sumWt_reverse (r N : ℕ) {e : ℕ} (he : e < N) :
    sumWt r N e = sumWt r N (N - 1 - e) := by
  unfold sumWt
  have h1 : ∀ j ∈ Finset.range N, wt r e j
      = (fun i => wt r (N - 1 - e) i) (N - 1 - j) := by
    intro j hj
    rw [Finset.mem_range] at hj
    exact (wt_reflect he hj).symm
  rw [Finset.sum_congr rfl h1, Finset.sum_range_reflect (fun i => wt r (N - 1 - e) i)]

theorem triangularAt_reverse (r : ℕ) (xs : List ℤ) {e : ℕ} (he : e < xs.length) :
    triangularAt r xs.reverse e = triangularAt r xs (xs.length - 1 - e) := by
  unfold triangularAt
  rw [sumWtX_reverse r xs he, List.length_reverse, sumWt_reverse r xs.length he]

theorem map_range_reflected (f : ℕ → ℤ) (N : ℕ) :
    (List.range N).map (fun e => f (N - 1 - e)) = ((List.range N).map f).reverse := by
  apply List.ext_getElem (by simp)
  intro i h1 h2
  rw [List.getElem_reverse]
  simp only [List.getElem_map, List.getElem_range, List.length_map, List.length_range]

/-- Claim C1: for every radius and every finite input sequence of length `N`,
the generator emits exactly `N` blurred outputs, whether driven by repeated
`feed` calls (the `blur` driver) or through the `StackBlurIter` iterator; and
if the very first `feed` of a sequence receives "no more input", no output is
ever produced for that sequence. -/
theorem c1_output_count (r : ℕ) (xs : List ℤ) :
    ∃ ys : List ℤ, blur r xs = .ok ys ∧ ys.length = xs.length ∧
      iterCollect (xs.length + r + 2) ⟨xs, StackBlur.withOps r [], false⟩ = .ok ys ∧
      (xs = [] → ys = []) ∧
      (∀ ops0 : List ℤ, feed (StackBlur.withOps r ops0) none
        = .ok (none, StackBlur.withOps r ops0)) := by
  refine ⟨(List.range xs.length).map (triangularAt r xs), blur_spec r xs, by simp, ?_,
    by intro h; rw [h]; rfl, fun ops0 => feed_idle_none _ rfl⟩
  obtain ⟨s₁, o1, o2, hrun, hdr, ho1, ho2⟩ := blur_parts r [] xs
  have hcat : o1 ++ o2 = (List.range xs.length).map (triangularAt r xs) := by
    rw [ho1, ho2, ← List.map_append]
    have h1 : List.range' 0 (xs.length - (r + 1)) ++
        List.range' (xs.length - (r + 1)) (min xs.length (r + 1))
        = List.range' 0 xs.length := by
      have h2 := List.range'_append_1 0 (xs.length - (r + 1)) (min xs.length (r + 1))
      rw [Nat.zero_add] at h2
      rw [h2]
      congr 1
      omega
    rw [h1, List.range_eq_range']
  have hb := iterCollect_run xs (StackBlur.withOps r []) o1 o2 s₁
    (xs.length + r + 2) hrun hdr (by
      rw [ho1, ho2]
      simp [List.length_range']
      omega)
  rw [hcat] at hb
  exact hb

/-- Claim C2: at radius 0 the blur is the identity: for every input sequence
the output sequence equals the input exactly. -/
theorem c2_radius_zero_identity (xs : List ℤ) : blur 0 xs = .ok xs := by
  rw [blur_spec 0 xs]
  congr 1
  have h1 : (List.range xs.length).map (triangularAt 0 xs)
      = (List.range xs.length).map (fun e => xs.getD e 0) := by
    refine List.map_congr_left (fun e he => ?_)
    rw [List.mem_range] at he
    exact triangularAt_radius_zero xs he
  rw [h1, map_getD_range]

/-- Claim C3: blurring `[10, 0, 0, 0, 20, 0, 0, 0, 30]` with radius 1 yields
the hand-computed triangular weighted averages with boundary-truncated
denominators at every position; in particular position 0 uses taps at offsets
0 and +1 with weights 2 and 1 and denominator 3, giving `(10*2 + 0*1)/3 = 6`. -/
theorem c3_concrete_radius_one :
    blur 1 [10, 0, 0, 0, 20, 0, 0, 0, 30] =
      .ok ((List.range 9).map (triangularAt 1 [10, 0, 0, 0, 20, 0, 0, 0, 30])) ∧
    blur 1 [10, 0, 0, 0, 20, 0, 0, 0, 30] = .ok [6, 2, 0, 5, 10, 5, 0, 7, 20] ∧
    triangularAt 1 [10, 0, 0, 0, 20, 0, 0, 0, 30] 0 = (10 * 2 + 0 * 1 : ℤ).tdiv 3 ∧
    (10 * 2 + 0 * 1 : ℤ).tdiv 3 = 6 :=
  ⟨blur_spec 1 _, by rfl, by decide, by decide⟩

/-- Claim C4: during warm-up the `i`-th input sample consumed (`i ≤ radius`)
contributes weight `radius + 1 - i` to the running sum, weight 1 to the rate
accumulator and `radius + 1 - i` to the denominator, the raw sample is pushed
onto the back of the window, and no output is produced (at `i = 0` the
accumulators and window have just been reset for the new sequence). -/
theorem c4_warmup_contribution (s : StackBlur) (i t : ℕ) (x : ℤ)
    (hst : s.state = .preload i t) (hle : i ≤ s.radius) :
    ∃ t2, feed s (some x) = .ok (none, { s with
      sum := (if i = 0 then 0 else s.sum) + x * ((s.radius + 1 - i : ℕ) : ℤ)
      rate := (if i = 0 then 0 else s.rate) + x
      dnom := (if i = 0 then 0 else s.dnom) + (s.radius + 1 - i)
      ops := (if i = 0 then List.replicate (s.radius + 1) 0 else s.ops) ++ [x]
      state := .preload (i + 1) t2 }) := by
  by_cases h0 : i = 0
  · subst h0
    refine ⟨t, ?_⟩
    rw [feed_start s t x hst]
    simp only [if_pos rfl, Except.ok.injEq, Prod.mk.injEq, StackBlur.mk.injEq, Nat.sub_zero]
    simp
  · refine ⟨if s.radius + 1 - i < s.dnom + (s.radius + 1 - i) then t + 1 else t, ?_⟩
    rw [feed_preload_eq s i t x hst (by omega) hle]
    simp only [if_neg h0, Except.ok.injEq, Prod.mk.injEq, StackBlur.mk.injEq]
    refine ⟨trivial, trivial, trivial, trivial, trivial, trivial, ?_⟩
    split_ifs <;> rfl

/-- Claim C5 (counterexample): for radius 1 and the length-2 input
`[10, 20]` (long enough to complete warm-up), the drain phase emits 2
outputs, not radius = 1. -/
theorem c5_counterexample_drain_count :
    drainOutputs 1 [10, 20] = .ok [13, 16] ∧ ¬ (([13, 16] : List ℤ).length = 1) :=
  ⟨by rfl, by decide⟩

/-- Claim C5 (amended): for every input sequence long enough to complete
warm-up (length ≥ radius + 1), after the last real input sample has been
consumed the drain phase emits exactly radius + 1 additional outputs. -/
theorem c5_drain_emits_radius_plus_one (r : ℕ) (xs : List ℤ)
    (h : r + 1 ≤ xs.length) :
    ∃ outs, drainOutputs r xs = .ok outs ∧ outs.length = r + 1 := by
  obtain ⟨s₁, o1, o2, hrun, hdr, ho1, ho2⟩ := blur_parts r [] xs
  have hlen2 : o2.length < r + 2 := by
    rw [ho2]
    simp [List.length_range']
  obtain ⟨g₂, hgo⟩ := drainGo_of_drains o2 s₁ hdr (r + 2) hlen2
  refine ⟨o2, ?_, ?_⟩
  · unfold drainOutputs
    simp only [hrun, hgo]
  · rw [ho2]
    simp [List.length_range']
    omega

theorem c5_witness :
    ∃ outs, drainOutputs 1 [10, 20] = .ok outs ∧ outs.length = 1 + 1 :=
  c5_drain_emits_radius_plus_one 1 [10, 20] (by decide)

/-- Claim C6: feeding a new `Some` sample while the generator is still
draining (a reachable state whose trailing edge is already truncated,
`trailing < radius`) panics with the `assert!` rather than consuming or
dropping the sample. -/
theorem c6_feed_during_drain_asserts (s : StackBlur) (l t : ℕ) (x : ℤ)
    (hre : Reachable s) (hst : s.state = .main l t) (ht : t < s.radius) :
    feed s (some x) = .error .assertFailed := by
  have hG := Reachable_good hre
  rcases hG with hidle | ⟨ys, hP⟩ | ⟨ys, e, hM⟩
  · rw [hidle] at hst
    exact absurd hst (by simp)
  · rw [hP.1] at hst
    exact absurd hst (by simp)
  · exact feed_drain_assert s l t x hst ht
      (by have := Fields_dnom_pos hM.2; omega) (Fields_ops_long hM.2)

theorem c6_witness :
    feed ⟨1, 50, 10, 3, [0, 10, 20], .main 1 0⟩ (some 5) = .error .assertFailed :=
  c6_feed_during_drain_asserts ⟨1, 50, 10, 3, [0, 10, 20], .main 1 0⟩ 1 0 5
    (@Reachable.step ⟨1, 40, 30, 3, [0, 0, 10, 20], .preload 2 1⟩ none (some 13)
      ⟨1, 50, 10, 3, [0, 10, 20], .main 1 0⟩
      (@Reachable.step ⟨1, 20, 10, 2, [0, 0, 10], .preload 1 0⟩ (some 20) none
        ⟨1, 40, 30, 3, [0, 0, 10, 20], .preload 2 1⟩
        (@Reachable.step (StackBlur.withOps 1 []) (some 10) none
          ⟨1, 20, 10, 2, [0, 0, 10], .preload 1 0⟩ (Reachable.base 1 []) (by rfl))
        (by rfl))
      (by rfl))
    rfl (by decide)

/-- Claim C7: a flat signal is unchanged: for every radius, constant sample
value and length, blurring the constant sequence yields the same constant
sequence. -/
theorem c7_constant_unchanged (r n : ℕ) (c : ℤ) :
    blur r (List.replicate n c) = .ok (List.replicate n c) := by
  rw [blur_spec]
  congr 1
  apply List.ext_getElem (by simp)
  intro i h1 h2
  have hn : i < n := by simpa using h2
  simp only [List.getElem_map, List.getElem_range, List.length_replicate]
  rw [triangularAt_const r n c hn]
  simp

/-- Claim C8: blurring the reversed sequence gives the reversed blurred
sequence: `blur (reverse xs) = reverse (blur xs)` for every radius. -/
theorem c8_reverse_symmetry (r : ℕ) (xs : List ℤ) :
    ∃ ys, blur r xs = .ok ys ∧ blur r xs.reverse = .ok ys.reverse := by
  refine ⟨_, blur_spec r xs, ?_⟩
  rw [blur_spec r xs.reverse]
  congr 1
  rw [List.length_reverse]
  have h1 : (List.range xs.length).map (triangularAt r xs.reverse)
      = (List.range xs.length).map (fun e => triangularAt r xs (xs.length - 1 - e)) := by
    refine List.map_congr_left (fun e he => ?_)
    rw [List.mem_range] at he
    exact triangularAt_reverse r xs he
  rw [h1, map_range_reflected (triangularAt r xs) xs.length]

/-- Claim C9: reusing the window deque across sequences leaks no state: for
any radius and any two sequences, the outputs of the second sequence are
identical whether the generator is built with the deque recycled from the
first sequence's run or with a fresh empty deque (and likewise for any
leftover deque contents whatsoever). -/
theorem c9_window_reuse (r : ℕ) (xs1 xs2 o1 : List ℤ) (s1 : StackBlur)
    (h : blurWith r [] xs1 = .ok (o1, s1)) :
    (blurWith r s1.ops xs2).map Prod.fst = (blurWith r [] xs2).map Prod.fst ∧
    ∀ ops0 : List ℤ,
      (blurWith r ops0 xs2).map Prod.fst = (blurWith r [] xs2).map Prod.fst := by
  have hall : ∀ ops0 : List ℤ,
      (blurWith r ops0 xs2).map Prod.fst = (blurWith r [] xs2).map Prod.fst := by
    intro ops0
    obtain ⟨sa, ha⟩ := blurWith_spec r ops0 xs2
    obtain ⟨sb, hb⟩ := blurWith_spec r [] xs2
    rw [ha, hb]
    rfl
  exact ⟨hall s1.ops, hall⟩

theorem c9_witness :
    (blurWith 1 (⟨1, 20, -30, 3, [10, 20], .preload 0 0⟩ : StackBlur).ops [7]).map Prod.fst
        = (blurWith 1 [] [7]).map Prod.fst ∧
    ∀ ops0 : List ℤ,
      (blurWith 1 ops0 [7]).map Prod.fst = (blurWith 1 [] [7]).map Prod.fst :=
  c9_window_reuse 1 [10, 20] [7] [13, 16] ⟨1, 20, -30, 3, [10, 20], .preload 0 0⟩ (by rfl)

/-- Claim C10: on every reachable generator state the division in the main
step never divides by zero: a `main`-phase state always has denominator at
least 1, and no `feed` call from a reachable state can fail with the
division-by-zero panic. -/
theorem c10_no_division_by_zero (s : StackBlur) (hre : Reachable s) :
    (∀ l t, s.state = .main l t → 1 ≤ s.dnom) ∧
    ∀ item, feed s item ≠ .error .divByZero := by
  have hG := Reachable_good hre
  exact ⟨fun l t hst => good_main_dnom_pos s hG l t hst, feed_good_not_div s hG⟩

theorem c10_witness :
    (∀ l t, (StackBlur.withOps 3 [5]).state = .main l t → 1 ≤ (StackBlur.withOps 3 [5]).dnom) ∧
    ∀ item, feed (StackBlur.withOps 3 [5]) item ≠ .error .divByZero :=
  c10_no_division_by_zero (StackBlur.withOps 3 [5]) (Reachable.base 3 [5])

/-- A concrete mid-warm-up generator state used to exercise the warm-up
contribution theorem. -/
def c4state : StackBlur := ⟨1, 20, 10, 2, [0, 0, 10], .preload 1 0⟩

theorem c4_witness :
    ∃ t2, feed c4state (some 20) = .ok (none, { c4state with
      sum := (if 1 = 0 then 0 else c4state.sum) + 20 * ((c4state.radius + 1 - 1 : ℕ) : ℤ)
      rate := (if 1 = 0 then 0 else c4state.rate) + 20
      dnom := (if 1 = 0 then 0 else c4state.dnom) + (c4state.radius + 1 - 1)
      ops := (if 1 = 0 then List.replicate (c4state.radius + 1) 0 else c4state.ops) ++ [20]
      state := .preload (1 + 1) t2 }) :=
  c4_warmup_contribution c4state 1 0 20 rfl (by decide)
